import Mathlib

/-!
# Verification of the Brainfuck interpreter (`src/BrainFuckInterpreter.cpp`)

Shallow embedding of the interpreter's core:

* `Pointer` — the "infinite" byte-buffer pointer (`class Pointer`, a
  `std::deque<char>` plus an index); cells are modelled as `Nat` values
  kept below 256, byte arithmetic is explicit `% 256`.
* `Command` — one of the characters `><+-.,[]` plus a repeat count
  (`class Command`).
* `generateSourceCode` — the run-length-encoding compiler, together with
  `skipComment` / the accumulation loop (`countRun`).
* `interpret` — the non-loop instruction dispatcher (returns `false` on a
  comment command and leaves all state unchanged).
* `skipLoop` — the forward scan matching a `[` to its `]`.
* `step` / `run` — the driver loop of `main`, with the loop-position stack.

Recursions that the C++ expresses as loops over iterators are embedded with
an explicit fuel argument (structurally recursive, hence kernel-evaluable);
the fuel chosen by the wrappers is proved sufficient, so the embeddings
compute exactly the loops' results.
-/

namespace BF

/-- Is `[` or `]` (mirrors `isLoopCommand`). -/
def isLoopCommand (ch : Char) : Bool :=
  ch == '[' || ch == ']'

/-- Is one of the actionable 8 characters (mirrors `isCommand`). -/
def isCommand (ch : Char) : Bool :=
  ch == '[' || ch == ']' || ch == '>' || ch == '<' ||
    ch == '+' || ch == '-' || ch == '.' || ch == ','

/-- A command character plus how many times it is to be executed
consecutively (mirrors `class Command`). -/
structure Command where
  command : Char
  count : Nat
deriving DecidableEq, Repr

/-- Skip all characters until one for which `isCommand` is true
(mirrors `skipComment`). -/
def skipComment (l : List Char) : List Char :=
  l.dropWhile (fun c => !isCommand c)

/-- The accumulation loop of `generateSourceCode` for a non-loop command
character `ch`: `while ((beg = skipComment(beg, end)) != end and *beg == ch)
{ ++count; ++beg; }`, with `skipComment` inlined one character at a time.
Returns the number of further `ch` occurrences counted and the rest of the
input (the final value of `beg`). -/
def countRun (ch : Char) : List Char → Nat × List Char
  | [] => (0, [])
  | c :: t =>
    if !isCommand c then countRun ch t
    else if c = ch then
      let pr := countRun ch t
      (pr.1 + 1, pr.2)
    else (0, c :: t)

/-- Fuel-indexed body of `generateSourceCode`; one unit of fuel per
iteration of the outer `while (beg != end)` loop. -/
def genAux : Nat → List Char → List Command
  | 0, _ => []
  | _ + 1, [] => []
  | fuel + 1, ch :: rest =>
    if isLoopCommand ch then
      ⟨ch, 1⟩ :: genAux fuel rest
    else if isCommand ch then
      let pr := countRun ch rest
      ⟨ch, pr.1 + 1⟩ :: genAux fuel pr.2
    else
      ⟨ch, 0⟩ :: genAux fuel rest

/-- The Command Compiler (mirrors `generateSourceCode`): every outer-loop
iteration consumes at least one character, so `l.length` units of fuel are
enough (proved in `genAux_congr`). -/
def generateSourceCode (l : List Char) : List Command :=
  genAux l.length l

/-- The "infinite" unsigned char buffer pointer (mirrors `class Pointer`):
a growable buffer of byte cells plus an index. -/
structure Pointer where
  mem : List Nat
  index : Nat
deriving DecidableEq, Repr

/-- `Pointer{1}`: one zero cell, index 0. -/
def Pointer.init : Pointer := ⟨[0], 0⟩

/-- `operator+=`: move the index forward, resizing (zero-filling) the
buffer to `index + 1` cells whenever it would fall behind the index. -/
def Pointer.advance (p : Pointer) (c : Nat) : Pointer :=
  let i := p.index + c
  if p.mem.length ≤ i then ⟨p.mem ++ List.replicate (i + 1 - p.mem.length) 0, i⟩
  else ⟨p.mem, i⟩

/-- `operator-=`: move the index backward (precondition `c ≤ index`,
asserted in the C++). -/
def Pointer.retreat (p : Pointer) (c : Nat) : Pointer :=
  ⟨p.mem, p.index - c⟩

/-- `operator*` (read): the cell at the current index. -/
def Pointer.read (p : Pointer) : Nat :=
  p.mem.getD p.index 0

/-- `operator*` (write): replace the cell at the current index. -/
def Pointer.write (p : Pointer) (v : Nat) : Pointer :=
  ⟨p.mem.set p.index v, p.index⟩

/-- Is one of the six whitespace bytes skipped by formatted `>>`
extraction in the default locale. -/
def isSpaceByte (b : Nat) : Bool :=
  b = 32 || b = 9 || b = 10 || b = 11 || b = 12 || b = 13

/-- One `std::cin >> *p` read: skip leading whitespace bytes, then store
one byte into the current cell; at end of input the read fails and the
cell is left unchanged. -/
def cinRead (p : Pointer) (input : List Nat) : Pointer × List Nat :=
  match input.dropWhile isSpaceByte with
  | [] => (p, [])
  | b :: t => (p.write (b % 256), t)

/-- `for (i = 0; i != count; ++i) { std::cin >> *p; }`. -/
def cinReads : Nat → Pointer → List Nat → Pointer × List Nat
  | 0, p, input => (p, input)
  | n + 1, p, input =>
    let pr := cinRead p input
    cinReads n pr.1 pr.2

/-- The non-loop instruction dispatcher (mirrors `interpret`): returns
`false` iff the command character is a comment, together with the updated
pointer, remaining input and extended output. Byte arithmetic wraps
`% 256`; output bytes are the cell cast to `unsigned char`. -/
def interpret (com : Command) (p : Pointer) (input output : List Nat) :
    Bool × Pointer × List Nat × List Nat :=
  if com.command = '>' then (true, p.advance com.count, input, output)
  else if com.command = '<' then (true, p.retreat com.count, input, output)
  else if com.command = '+' then
    (true, p.write ((p.read + com.count) % 256), input, output)
  else if com.command = '-' then
    (true, p.write ((p.read + 255 * com.count) % 256), input, output)
  else if com.command = '.' then
    (true, p, input, output ++ List.replicate com.count (p.read % 256))
  else if com.command = ',' then
    let pr := cinReads com.count p input
    (true, pr.1, pr.2, output)
  else (false, p, input, output)

/-- Fuel-indexed body of `skipLoop`'s `do { … } while (bracketCount != 0)`
scan: examine the command at `pos`, bump the signed nesting counter, stop
(returning `pos`, i.e. the C++ `p - 1` after `++p`) the moment the counter
is zero. Running off the end of the program (the unbalanced case, an
out-of-bounds dereference in the C++) yields `none`. -/
def skipLoopAux (prog : List Command) : Nat → Nat → Int → Option Nat
  | 0, _, _ => none
  | fuel + 1, pos, cnt =>
    match prog[pos]? with
    | none => none
    | some com =>
      let cnt' := if com.command = '[' then cnt + 1
                  else if com.command = ']' then cnt - 1
                  else cnt
      if cnt' = 0 then some pos
      else skipLoopAux prog fuel (pos + 1) cnt'

/-- Skips from `[` to the corresponding `]` taking account of nested loops
(mirrors `skipLoop`): the scan visits at most `prog.length - pos`
positions before leaving the program. -/
def skipLoop (prog : List Command) (pos : Nat) : Option Nat :=
  skipLoopAux prog (prog.length - pos) pos 0

/-- The state of `main`'s driver loop: instruction cursor `it`, the loop
position stack `loopPos`, the tape pointer, and the two byte streams. -/
structure ExecState where
  it : Nat
  stack : List Nat
  p : Pointer
  input : List Nat
  output : List Nat
deriving DecidableEq, Repr

/-- Result of one iteration of the driver loop. -/
inductive StepResult where
  | next (s : ExecState)
  | halted
  | fault
deriving DecidableEq, Repr

/-- One iteration of `main`'s `while (it != end)` loop. `fault` marks the
two assertion-guarded preconditions: popping an empty loop stack, and
`skipLoop` running off the end of the program. -/
def step (prog : List Command) (s : ExecState) : StepResult :=
  match prog[s.it]? with
  | none => .halted
  | some com =>
    if com.command = '[' then
      if s.p.read = 0 then
        match skipLoop prog s.it with
        | some q => .next { s with it := q + 1 }
        | none => .fault
      else .next { s with stack := s.it :: s.stack, it := s.it + 1 }
    else if com.command = ']' then
      match s.stack with
      | [] => .fault
      | t :: rest => .next { s with it := t, stack := rest }
    else
      let r := interpret com s.p s.input s.output
      .next { s with p := r.2.1, input := r.2.2.1, output := r.2.2.2, it := s.it + 1 }

/-- Run the driver loop for at most `fuel` iterations; `some` is a
completed (halted) run, `none` is fuel exhaustion or a fault. -/
def run (prog : List Command) : Nat → ExecState → Option ExecState
  | 0, _ => none
  | fuel + 1, s =>
    match step prog s with
    | .halted => some s
    | .fault => none
    | .next s' => run prog fuel s'

/-- The initial execution state: cursor 0, empty stack, fresh tape. -/
def initState (input : List Nat) : ExecState :=
  ⟨0, [], Pointer.init, input, []⟩

/-- Re-serialize a compiled instruction sequence to its canonical
character stream: each command's character, `count` copies. -/
def serialize (prog : List Command) : List Char :=
  (prog.map (fun com => List.replicate com.count com.command)).flatten

/-- Drop the count-0 comment commands from a compiled program. -/
def eraseComments (prog : List Command) : List Command :=
  prog.filter (fun com => isCommand com.command)

/-- The contribution of one command to `skipLoop`'s nesting counter. -/
def bracketDelta (com : Command) : Int :=
  if com.command = '[' then 1 else if com.command = ']' then -1 else 0

/-- Net nesting count of the first `j` commands of a program. -/
def prefixNet (prog : List Command) (j : Nat) : Int :=
  ((prog.take j).map bracketDelta).sum

/-- Declarative matching: `q` is the loop position matched with `p` when
the signed nesting count first returns, at `q` inclusive, to its value
before `p`. -/
def isLoopMatch (prog : List Command) (p q : Nat) : Prop :=
  p ≤ q ∧ q < prog.length ∧ prefixNet prog (q + 1) = prefixNet prog p ∧
    ∀ r < q, p ≤ r → prefixNet prog (r + 1) ≠ prefixNet prog p

instance (prog : List Command) (p q : Nat) : Decidable (isLoopMatch prog p q) := by
  unfold isLoopMatch
  infer_instance

/-- `wss.length` further occurrences of `c`, each preceded by a block of
bytes (intended: comment bytes). -/
def interleaved (c : Char) : List (List Char) → List Char
  | [] => []
  | w :: wss => w ++ c :: interleaved c wss

/-- Shape invariant of compiled programs: every command is a count-0
comment, a count-1 loop command, or a positive-count non-loop operator
run that is never directly followed by a command of the same character
(nor by a comment command). -/
inductive Inv : List Command → Prop where
  | nil : Inv []
  | comment {c : Char} {rest : List Command} :
      ¬ isCommand c → Inv rest → Inv (⟨c, 0⟩ :: rest)
  | loop {c : Char} {rest : List Command} :
      isLoopCommand c → Inv rest → Inv (⟨c, 1⟩ :: rest)
  | op {c : Char} {n : Nat} {rest : List Command} :
      isCommand c → ¬ isLoopCommand c → 1 ≤ n →
      (∀ com ∈ rest.head?, isCommand com.command ∧ com.command ≠ c) →
      Inv rest → Inv (⟨c, n⟩ :: rest)

/-- Position translation from a program to its comment-erased form: the
number of surviving commands strictly before the given position. -/
def posMap (prog : List Command) (i : Nat) : Nat :=
  (eraseComments (prog.take i)).length

/-- Translate an execution state of `prog` to the corresponding state of
`eraseComments prog`: cursor and stacked positions through `posMap`,
tape and streams unchanged. -/
def mapState (prog : List Command) (s : ExecState) : ExecState :=
  ⟨posMap prog s.it, s.stack.map (posMap prog), s.p, s.input, s.output⟩

/-! ## Basic facts about the compiler -/

theorem isCommand_of_isLoopCommand {ch : Char} (h : isLoopCommand ch) :
    isCommand ch := by
  simp only [isLoopCommand, Bool.or_eq_true, beq_iff_eq] at h
  rcases h with h | h <;> subst h <;> rfl

theorem ne_of_not_isCommand {ch : Char} (h : ¬ isCommand ch) :
    ch ≠ '[' ∧ ch ≠ ']' ∧ ch ≠ '>' ∧ ch ≠ '<' ∧
      ch ≠ '+' ∧ ch ≠ '-' ∧ ch ≠ '.' ∧ ch ≠ ',' := by
  simp only [isCommand, Bool.or_eq_true, beq_iff_eq] at h
  push_neg at h
  tauto

/-- The accumulation loop never grows its input. -/
theorem countRun_length (ch : Char) :
    ∀ l : List Char, (countRun ch l).2.length ≤ l.length := by
  intro l
  induction l with
  | nil => simp [countRun]
  | cons c t ih =>
    simp only [countRun]
    split
    · exact Nat.le_trans ih (Nat.le_succ _)
    · split
      · exact Nat.le_trans ih (Nat.le_succ _)
      · simp

/-- The accumulation loop stops at the end of the input or at a command
character different from the one being accumulated. -/
theorem countRun_stop (ch : Char) :
    ∀ l : List Char, (countRun ch l).2 = [] ∨
      ∃ x t, (countRun ch l).2 = x :: t ∧ isCommand x ∧ x ≠ ch := by
  intro l
  induction l with
  | nil => simp [countRun]
  | cons c t ih =>
    simp only [countRun]
    split
    · exact ih
    · split
      · exact ih
      · rename_i hcom hne
        right
        exact ⟨c, t, rfl, by simpa using hcom, by simpa using hne⟩

/-- `genAux` does not depend on the fuel once the fuel covers the input
length: each outer iteration consumes at least one character. -/
theorem genAux_congr :
    ∀ fuel fuel' l, l.length ≤ fuel → l.length ≤ fuel' →
      genAux fuel l = genAux fuel' l := by
  intro fuel
  induction fuel with
  | zero =>
    intro fuel' l hl _
    have : l = [] := List.eq_nil_of_length_eq_zero (Nat.le_zero.mp hl)
    subst this
    cases fuel' <;> rfl
  | succ fuel ih =>
    intro fuel' l hl hl'
    cases l with
    | nil => cases fuel' <;> rfl
    | cons ch rest =>
      cases fuel' with
      | zero => simp at hl'
      | succ fuel'' =>
        simp only [genAux]
        split
        · rw [ih fuel'' rest (by simpa using hl) (by simpa using hl')]
        · split
          · rw [ih fuel'' (countRun ch rest).2
              (Nat.le_trans (countRun_length ch rest) (by simpa using hl))
              (Nat.le_trans (countRun_length ch rest) (by simpa using hl'))]
          · rw [ih fuel'' rest (by simpa using hl) (by simpa using hl')]

theorem generateSourceCode_nil : generateSourceCode [] = [] := rfl

theorem generateSourceCode_loop {ch : Char} (rest : List Char)
    (h : isLoopCommand ch) :
    generateSourceCode (ch :: rest) = ⟨ch, 1⟩ :: generateSourceCode rest := by
  simp only [generateSourceCode, List.length_cons, genAux, h, if_pos]

theorem generateSourceCode_op {ch : Char} (rest : List Char)
    (hc : isCommand ch) (hl : ¬ isLoopCommand ch) :
    generateSourceCode (ch :: rest) =
      ⟨ch, (countRun ch rest).1 + 1⟩ ::
        generateSourceCode (countRun ch rest).2 := by
  simp only [generateSourceCode, List.length_cons, genAux, hc, hl,
    Bool.false_eq_true, if_false, if_pos]
  rw [genAux_congr rest.length (countRun ch rest).2.length (countRun ch rest).2
    (countRun_length ch rest) le_rfl]

theorem generateSourceCode_comment {ch : Char} (rest : List Char)
    (hc : ¬ isCommand ch) :
    generateSourceCode (ch :: rest) = ⟨ch, 0⟩ :: generateSourceCode rest := by
  have hl : ¬ isLoopCommand ch := fun h => hc (isCommand_of_isLoopCommand h)
  simp only [generateSourceCode, List.length_cons, genAux, hc, hl,
    Bool.false_eq_true, if_false]

theorem skipComment_nil : skipComment [] = [] := rfl

theorem skipComment_cons_comment {x : Char} (t : List Char)
    (hx : ¬ isCommand x) : skipComment (x :: t) = skipComment t := by
  simp [skipComment, List.dropWhile_cons, hx]

theorem skipComment_cons_command {x : Char} (t : List Char)
    (hx : isCommand x) : skipComment (x :: t) = x :: t := by
  simp [skipComment, List.dropWhile_cons, hx]

/-- Comment bytes are transparently skipped by the accumulation loop. -/
theorem countRun_append_comments (ch : Char) (w l : List Char)
    (hw : ∀ x ∈ w, ¬ isCommand x) :
    countRun ch (w ++ l) = countRun ch l := by
  induction w with
  | nil => rfl
  | cons x t ih =>
    have hx : ¬ isCommand x := hw x (by simp)
    simp only [List.cons_append, countRun, hx, Bool.not_eq_true',
      Bool.not_eq_true, if_pos]
    · exact ih fun y hy => hw y (by simp [hy])

theorem countRun_self {ch : Char} (l : List Char) (h : isCommand ch) :
    countRun ch (ch :: l) = ((countRun ch l).1 + 1, (countRun ch l).2) := by
  simp [countRun, h]

theorem countRun_interleaved {c : Char} (hc : isCommand c) :
    ∀ (wss : List (List Char)) (r : List Char),
      (∀ w ∈ wss, ∀ x ∈ w, ¬ isCommand x) →
      countRun c (interleaved c wss ++ r) =
        ((countRun c r).1 + wss.length, (countRun c r).2) := by
  intro wss
  induction wss with
  | nil => intro r _; simp [interleaved]
  | cons w wss ih =>
    intro r hw
    have h1 : interleaved c (w :: wss) ++ r =
        w ++ (c :: (interleaved c wss ++ r)) := by
      simp [interleaved]
    rw [h1, countRun_append_comments c w _ (hw w (by simp)),
      countRun_self _ hc, ih r (fun w' hw' => hw w' (by simp [hw']))]
    simp
    omega

/-- When the next non-comment byte differs from the accumulated character
(or the input runs out), the accumulation loop counts nothing and leaves
the cursor at the comment-skipped rest. -/
theorem countRun_no_match {c : Char} :
    ∀ r : List Char, (∀ d, (skipComment r).head? = some d → d ≠ c) →
      countRun c r = (0, skipComment r) := by
  intro r
  induction r with
  | nil => intro _; rfl
  | cons x t ih =>
    intro h
    by_cases hx : isCommand x
    · have hne : x ≠ c := h x (by rw [skipComment_cons_command t hx]; rfl)
      rw [skipComment_cons_command t hx]
      simp [countRun, hx, hne]
    · rw [skipComment_cons_comment t hx]
      rw [skipComment_cons_comment t hx] at h
      simp only [countRun, hx, Bool.not_eq_true', Bool.not_eq_true, if_pos]
      exact ih h

/-- Claim C2: for every non-loop operator character `c`, a run of `N`
occurrences of `c` that are consecutive up to interleaved comment bytes
compiles to exactly one command of character `c` with count `N`
(compilation continuing at the comment-skipped rest), and every `[` or
`]` at the head of the remaining input emits its own count-1 command,
never merged with following identical bytes. -/
theorem claim_C2_runs_merge :
    (∀ (c : Char) (wss : List (List Char)) (r : List Char),
      isCommand c → ¬ isLoopCommand c →
      (∀ w ∈ wss, ∀ x ∈ w, ¬ isCommand x) →
      (∀ d, (skipComment r).head? = some d → d ≠ c) →
      generateSourceCode (c :: (interleaved c wss ++ r)) =
        ⟨c, wss.length + 1⟩ :: generateSourceCode (skipComment r)) ∧
    (∀ (b : Char) (t : List Char), isLoopCommand b →
      generateSourceCode (b :: t) = ⟨b, 1⟩ :: generateSourceCode t) := by
  constructor
  · intro c wss r hc hl hw hr
    rw [generateSourceCode_op _ hc hl,
      countRun_interleaved hc wss r hw, countRun_no_match r hr]
    simp [Nat.add_comm]
  · intro b t hb
    exact generateSourceCode_loop t hb

/-- Concrete instance of claim C2: the run `+a+` before `-x` merges into
one count-2 command, and adjacent `[[` stay two count-1 commands. -/
theorem claim_C2_runs_merge_witness :
    generateSourceCode ('+' :: (interleaved '+' [['a']] ++ ['-', 'x'])) =
      ⟨'+', 2⟩ :: generateSourceCode (skipComment ['-', 'x']) ∧
    generateSourceCode ('[' :: ['[', '-']) =
      ⟨'[', 1⟩ :: generateSourceCode ['[', '-'] := by
  constructor
  · exact claim_C2_runs_merge.1 '+' [['a']] ['-', 'x'] (by decide) (by decide)
      (by decide) (by decide)
  · exact claim_C2_runs_merge.2 '[' ['[', '-'] (by decide)

/-- Count invariant of every command `genAux` emits. -/
theorem genAux_counts :
    ∀ (fuel : Nat) (l : List Char) (com : Command), com ∈ genAux fuel l →
      (isCommand com.command → 1 ≤ com.count) ∧
      (isLoopCommand com.command → com.count = 1) ∧
      (¬ isCommand com.command → com.count = 0) := by
  intro fuel
  induction fuel with
  | zero => intro l com h; simp [genAux] at h
  | succ fuel ih =>
    intro l com h
    cases l with
    | nil => simp [genAux] at h
    | cons ch rest =>
      simp only [genAux] at h
      split at h
      · rename_i hloop
        rcases List.mem_cons.mp h with rfl | hmem
        · refine ⟨fun _ => le_rfl, fun _ => rfl, fun hc => ?_⟩
          exact absurd (isCommand_of_isLoopCommand hloop) hc
        · exact ih rest com hmem
      · split at h
        · rename_i hloop hcom
          rcases List.mem_cons.mp h with rfl | hmem
          · exact ⟨fun _ => Nat.succ_le_succ (Nat.zero_le _),
              fun hl => absurd hl hloop, fun hc => absurd hcom hc⟩
          · exact ih (countRun ch rest).2 com hmem
        · rename_i hloop hcom
          rcases List.mem_cons.mp h with rfl | hmem
          · exact ⟨fun hc => absurd hc hcom,
              fun hl => absurd (isCommand_of_isLoopCommand hl) hcom,
              fun _ => rfl⟩
          · exact ih rest com hmem

/-- Counterexample to claim C7 as stated: the comment byte `a` compiles
to a command whose count is 0, not ≥ 1. -/
theorem claim_C7_counterexample :
    ¬ (∀ com ∈ generateSourceCode ['a'], 1 ≤ com.count) := by
  decide

/-- Claim C7 (amended): every compiled command with an operator character
carries count ≥ 1, loop commands carry count exactly 1, and the (comment)
commands the compiler also emits for comment bytes carry count 0. -/
theorem claim_C7_counts :
    ∀ (s : List Char), ∀ com ∈ generateSourceCode s,
      (isCommand com.command → 1 ≤ com.count) ∧
      (isLoopCommand com.command → com.count = 1) ∧
      (¬ isCommand com.command → com.count = 0) :=
  fun s => genAux_counts s.length s

/-- Concrete instance of claim C7: the `[` command compiled from `+[a`
carries count exactly 1. -/
theorem claim_C7_counts_witness :
    (isCommand (Command.mk '[' 1).command → 1 ≤ (Command.mk '[' 1).count) ∧
    (isLoopCommand (Command.mk '[' 1).command → (Command.mk '[' 1).count = 1) ∧
    (¬ isCommand (Command.mk '[' 1).command → (Command.mk '[' 1).count = 0) :=
  claim_C7_counts ['+', '[', 'a'] ⟨'[', 1⟩ (by decide)

/-! ## Comment commands at execution time -/

/-- `interpret` on a comment command returns `false` and changes
nothing. -/
theorem interpret_comment (com : Command) (p : Pointer)
    (input output : List Nat) (h : ¬ isCommand com.command) :
    interpret com p input output = (false, p, input, output) := by
  obtain ⟨h1, h2, h3, h4, h5, h6, h7, h8⟩ := ne_of_not_isCommand h
  simp [interpret, h3, h4, h5, h6, h7, h8]

/-- Running a program that consists only of comment commands walks the
cursor straight off the end, leaving tape, streams and stack untouched. -/
theorem run_comments (prog : List Command)
    (hprog : ∀ com ∈ prog, ¬ isCommand com.command) :
    ∀ (fuel : Nat) (s : ExecState), s.it ≤ prog.length →
      prog.length - s.it < fuel →
      run prog fuel s = some { s with it := prog.length } := by
  intro fuel
  induction fuel with
  | zero => intro s _ h; omega
  | succ fuel ih =>
    intro s hle hfuel
    match hget : prog[s.it]? with
    | none =>
      have hit : prog.length ≤ s.it := by
        simpa using List.getElem?_eq_none_iff.mp hget
      have hit' : s.it = prog.length := le_antisymm hle hit
      simp only [run, step, hget]
      rw [← hit']
    | some com =>
      have hlt : s.it < prog.length := by
        by_contra hc
        rw [List.getElem?_eq_none_iff.mpr (by omega)] at hget
        exact Option.noConfusion hget
      have hmem : com ∈ prog := by
        have := List.getElem?_eq_some_iff.mp hget
        obtain ⟨h', rfl⟩ := this
        exact List.getElem_mem h'
      have hcc : ¬ isCommand com.command := hprog com hmem
      obtain ⟨h1, h2, _, _, _, _, _, _⟩ := ne_of_not_isCommand hcc
      simp only [run, step, hget, h1, h2, if_false,
        interpret_comment com s.p s.input s.output hcc]
      exact ih { s with it := s.it + 1 }
        (by show s.it + 1 ≤ prog.length; omega)
        (by show prog.length - (s.it + 1) < fuel; omega)

/-- Counterexample to claim C1 as stated: the all-comment source `a`
does not compile to an empty program (it compiles to one count-0
command). -/
theorem claim_C1_counterexample : generateSourceCode ['a'] ≠ [] := by
  decide

/-- Claim C1 (amended): each comment byte compiles to a count-0 command
carrying the comment character (not to no command); a source with zero
operator characters compiles to exactly those count-0 commands, and
executing that program halts with no output, no input consumed and the
tape untouched. -/
theorem claim_C1_comments (s : List Char) (input : List Nat)
    (h : ∀ c ∈ s, ¬ isCommand c) :
    generateSourceCode s = s.map (fun c => ⟨c, 0⟩) ∧
    run (generateSourceCode s) (s.length + 1) (initState input) =
      some { initState input with it := s.length } := by
  have hmap : ∀ t : List Char, (∀ c ∈ t, ¬ isCommand c) →
      generateSourceCode t = t.map (fun c => ⟨c, 0⟩) := by
    intro t
    induction t with
    | nil => intro _; rfl
    | cons c t ih =>
      intro hct
      rw [generateSourceCode_comment t (hct c (by simp)),
        ih (fun x hx => hct x (by simp [hx])), List.map_cons]
  refine ⟨hmap s h, ?_⟩
  rw [hmap s h]
  have hlen : (s.map (fun c => (⟨c, 0⟩ : Command))).length = s.length := by
    simp
  have := run_comments (s.map (fun c => ⟨c, 0⟩))
    (by
      intro com hcom
      obtain ⟨c, hc, rfl⟩ := List.mem_map.mp hcom
      exact h c hc)
    (s.length + 1) (initState input) (by simp [initState]) (by simp [initState])
  rw [this, hlen]

/-- Concrete instance of claim C1: the two-comment source `ab` compiles
to two count-0 commands and runs to a halt with empty output, tape and
input untouched. -/
theorem claim_C1_comments_witness :
    generateSourceCode ['a', 'b'] = [⟨'a', 0⟩, ⟨'b', 0⟩] ∧
    run (generateSourceCode ['a', 'b']) 3 (initState [7]) =
      some { initState [7] with it := 2 } :=
  claim_C1_comments ['a', 'b'] [7] (by decide)

/-! ## Cell arithmetic and input -/

/-- Writing then reading the current cell (valid index, as asserted by
`operator*`). -/
theorem Pointer.read_write (p : Pointer) (v : Nat)
    (h : p.index < p.mem.length) : (p.write v).read = v := by
  simp only [Pointer.write, Pointer.read, List.getD, List.get?_eq_getElem?]
  rw [List.getElem?_set_self h]
  rfl

/-- Claim C6: an Increment command with count `n` sets the current cell
to `(v + n) mod 256` and a Decrement to `(v - n) mod 256`, both returning
`true` (no overflow error); in particular `255 + 1` wraps to `0` and
`0 - 1` wraps to `255`. -/
theorem claim_C6_wraparound :
    (∀ (p : Pointer) (n : Nat) (input output : List Nat),
      p.index < p.mem.length →
      ((interpret ⟨'+', n⟩ p input output).2.1.read : Int) =
          ((p.read : Int) + n) % 256 ∧
        ((interpret ⟨'-', n⟩ p input output).2.1.read : Int) =
          ((p.read : Int) - n) % 256 ∧
        (interpret ⟨'+', n⟩ p input output).1 = true ∧
        (interpret ⟨'-', n⟩ p input output).1 = true) ∧
    (interpret ⟨'+', 1⟩ ⟨[255], 0⟩ [] []).2.1.read = 0 ∧
    (interpret ⟨'-', 1⟩ ⟨[0], 0⟩ [] []).2.1.read = 255 := by
  refine ⟨?_, by decide, by decide⟩
  intro p n input output h
  have h1 : interpret ⟨'+', n⟩ p input output =
      (true, p.write ((p.read + n) % 256), input, output) := rfl
  have h2 : interpret ⟨'-', n⟩ p input output =
      (true, p.write ((p.read + 255 * n) % 256), input, output) := rfl
  rw [h1, h2]
  refine ⟨?_, ?_, rfl, rfl⟩
  · rw [Pointer.read_write p _ h]
    push_cast
    omega
  · rw [Pointer.read_write p _ h]
    push_cast
    omega

/-- Concrete instance of claim C6 at cell value 7, count 3. -/
theorem claim_C6_wraparound_witness :
    (0 : Nat) < 1 ∧
      (((interpret ⟨'+', 3⟩ ⟨[7], 0⟩ [] []).2.1.read : Int) =
        ((7 : Int) + 3) % 256) :=
  ⟨Nat.zero_lt_one,
    (claim_C6_wraparound.1 ⟨[7], 0⟩ 3 [] [] (by decide)).1⟩

/-- Reading from an exhausted stream never changes the pointer. -/
theorem cinReads_nil : ∀ (n : Nat) (p : Pointer), cinReads n p [] = (p, []) := by
  intro n
  induction n with
  | zero => intro p; rfl
  | succ n ih => intro p; exact ih p

/-- Claim C9: when the input stream is exhausted at an Input command, all
`count` reads fail to update the cell, execution is not aborted, and the
cursor advances by 1; tape, output and loop stack are untouched. -/
theorem claim_C9_eof_input (prog : List Command) (s : ExecState)
    (com : Command) (hget : prog[s.it]? = some com)
    (hcc : com.command = ',') (hin : s.input = []) :
    step prog s = .next { s with it := s.it + 1 } := by
  obtain ⟨c, n⟩ := com
  simp only at hcc
  subst hcc
  simp only [step, hget]
  rw [if_neg (by decide), if_neg (by decide), hin]
  have hi : interpret ⟨',', n⟩ s.p [] s.output = (true, s.p, [], s.output) := by
    have h2 : cinReads n s.p [] = (s.p, []) := cinReads_nil n s.p
    calc interpret ⟨',', n⟩ s.p [] s.output
        = (true, (cinReads n s.p []).1, (cinReads n s.p []).2, s.output) := rfl
      _ = (true, s.p, [], s.output) := by rw [h2]
  rw [hi, ← hin]

/-- Concrete instance of claim C9: `,` on empty input just advances the
cursor. -/
theorem claim_C9_eof_input_witness :
    step [⟨',', 1⟩] (initState []) = .next { initState [] with it := 1 } :=
  claim_C9_eof_input [⟨',', 1⟩] (initState []) ⟨',', 1⟩ rfl rfl rfl

/-! ## Loop close and loop re-entry -/

/-- Claim C4: at a LoopClose with a non-empty loop stack the engine pops
the top and moves the cursor there without incrementing it (so the
LoopOpen is re-tested next), and a LoopOpen met with a non-zero cell
pushes its own position before advancing by 1. -/
theorem claim_C4_loop_stack (prog : List Command) (s : ExecState)
    (com : Command) (t : Nat) (rest : List Nat)
    (hget : prog[s.it]? = some com) :
    (com.command = ']' → s.stack = t :: rest →
      step prog s = .next { s with it := t, stack := rest }) ∧
    (com.command = '[' → s.p.read ≠ 0 →
      step prog s = .next { s with stack := s.it :: s.stack, it := s.it + 1 }) := by
  constructor
  · intro hcc hstack
    obtain ⟨c, n⟩ := com
    simp only at hcc
    subst hcc
    simp only [step, hget]
    rw [hstack, if_neg (by decide), if_pos trivial]
  · intro hcc hcell
    obtain ⟨c, n⟩ := com
    simp only at hcc
    subst hcc
    simp only [step, hget]
    rw [if_pos trivial, if_neg hcell]

/-- Concrete instance of claim C4 on the program `[-]` paused at the
close bracket with position 0 stacked, and at the open bracket with a
non-zero cell. -/
theorem claim_C4_loop_stack_witness :
    step [⟨'[', 1⟩, ⟨'-', 1⟩, ⟨']', 1⟩] ⟨2, [0], ⟨[5], 0⟩, [], []⟩ =
      .next ⟨0, [], ⟨[5], 0⟩, [], []⟩ ∧
    step [⟨'[', 1⟩, ⟨'-', 1⟩, ⟨']', 1⟩] ⟨0, [], ⟨[5], 0⟩, [], []⟩ =
      .next ⟨1, [0], ⟨[5], 0⟩, [], []⟩ :=
  ⟨(claim_C4_loop_stack [⟨'[', 1⟩, ⟨'-', 1⟩, ⟨']', 1⟩]
      ⟨2, [0], ⟨[5], 0⟩, [], []⟩ ⟨']', 1⟩ 0 [] rfl).1 rfl rfl,
    (claim_C4_loop_stack [⟨'[', 1⟩, ⟨'-', 1⟩, ⟨']', 1⟩]
      ⟨0, [], ⟨[5], 0⟩, [], []⟩ ⟨'[', 1⟩ 0 [] rfl).2 rfl (by decide)⟩

/-- Claim C5: compiling `++++++++[>++++++++<-]>+.` and executing it on a
fresh tape with empty input terminates, producing the single output
byte 65. -/
theorem claim_C5_scenario :
    ((run (generateSourceCode "++++++++[>++++++++<-]>+.".toList) 60
        (initState [])).map fun f => f.output) = some [65] := by
  decide

/-! ## The loop resolver -/

theorem prefixNet_succ (prog : List Command) (i : Nat) (h : i < prog.length) :
    prefixNet prog (i + 1) = prefixNet prog i + bracketDelta prog[i] := by
  simp only [prefixNet, List.take_succ, List.getElem?_eq_getElem h,
    Option.toList_some, List.map_append, List.sum_append, List.map_cons,
    List.map_nil, List.sum_cons, List.sum_nil]
  ring

theorem bracketDelta_bounds (com : Command) :
    -1 ≤ bracketDelta com ∧ bracketDelta com ≤ 1 := by
  unfold bracketDelta
  split
  · omega
  · split <;> omega

theorem bracketDelta_eq_neg_one {com : Command}
    (h : bracketDelta com = -1) : com.command = ']' := by
  unfold bracketDelta at h
  split at h
  · omega
  · split at h
    · assumption
    · omega

theorem bracketDelta_open {com : Command} (h : com.command = '[') :
    bracketDelta com = 1 := by
  unfold bracketDelta
  rw [if_pos h]

/-- The nesting counter computed by one scan step of `skipLoopAux` is
`bracketDelta`. -/
theorem cntStep_eq (cnt : Int) (com : Command) :
    (if com.command = '[' then cnt + 1
      else if com.command = ']' then cnt - 1 else cnt) =
      cnt + bracketDelta com := by
  unfold bracketDelta
  split
  · simp
  · split
    · ring_nf
    · simp

/-- Completeness of the resolver scan: it stops exactly at the first
position (from `pos`, inclusive) where the nesting counter returns
to zero. -/
theorem skipLoopAux_complete (prog : List Command) :
    ∀ (fuel pos : Nat) (cnt : Int) (q : Nat), pos ≤ q → q < prog.length →
      q + 1 - pos ≤ fuel →
      cnt + (prefixNet prog (q + 1) - prefixNet prog pos) = 0 →
      (∀ r, pos ≤ r → r < q →
        cnt + (prefixNet prog (r + 1) - prefixNet prog pos) ≠ 0) →
      skipLoopAux prog fuel pos cnt = some q := by
  intro fuel
  induction fuel with
  | zero => intro pos cnt q h1 _ h3 _ _; omega
  | succ fuel ih =>
    intro pos cnt q h1 h2 h3 h4 h5
    have hpos : pos < prog.length := Nat.lt_of_le_of_lt h1 h2
    have hget : prog[pos]? = some prog[pos] := List.getElem?_eq_getElem hpos
    simp only [skipLoopAux, hget, cntStep_eq]
    have hd : prefixNet prog (pos + 1) = prefixNet prog pos +
        bracketDelta prog[pos] := prefixNet_succ prog pos hpos
    by_cases hq : pos = q
    · subst hq
      rw [if_pos (by omega)]
    · have hlt : pos < q := Nat.lt_of_le_of_ne h1 hq
      have hne : cnt + bracketDelta prog[pos] ≠ 0 := by
        have := h5 pos le_rfl hlt
        omega
      rw [if_neg hne]
      refine ih (pos + 1) (cnt + bracketDelta prog[pos]) q hlt h2 (by omega)
        (by omega) ?_
      intro r hr1 hr2
      have := h5 r (by omega) hr2
      omega

/-- Starting on a `[`, the position where the nesting counter first
returns to zero holds a `]`. -/
theorem loopMatch_close (prog : List Command) (p q : Nat)
    (hp : p < prog.length) (hpc : prog[p].command = '[')
    (hm : isLoopMatch prog p q) : ∃ h : q < prog.length,
      prog[q].command = ']' := by
  obtain ⟨hpq, hq, hnet, hmin⟩ := hm
  refine ⟨hq, ?_⟩
  have hdp : prefixNet prog (p + 1) = prefixNet prog p + 1 := by
    rw [prefixNet_succ prog p hp, bracketDelta_open hpc]
  have hlt : p < q := by
    rcases Nat.lt_or_ge p q with h | h
    · exact h
    · exfalso
      have : p = q := by omega
      subst this
      omega
  have hposc : ∀ r, p ≤ r → r < q →
      1 ≤ prefixNet prog (r + 1) - prefixNet prog p := by
    intro r
    induction r with
    | zero =>
      intro hr0 hr1
      have : p = 0 := Nat.le_zero.mp hr0
      subst this
      omega
    | succ r ihr =>
      intro hr0 hr1
      rcases Nat.lt_or_ge r (q - 1) with hrq | hrq
      · rcases Nat.lt_or_ge r p with hrp | hrp
        · have : p = r + 1 := by omega
          subst this
          omega
        · have h1 := ihr hrp (by omega)
          have hr1len : r + 1 < prog.length := by omega
          have hd := prefixNet_succ prog (r + 1) hr1len
          have hb := bracketDelta_bounds prog[r + 1]
          have hne := hmin (r + 1) hr1 (by omega)
          omega
      · omega
  have hq1 : 1 ≤ prefixNet prog q - prefixNet prog p := by
    have := hposc (q - 1) (by omega) (by omega)
    have heq : q - 1 + 1 = q := by omega
    rw [heq] at this
    exact this
  have hdq := prefixNet_succ prog q hq
  have hbq := bracketDelta_bounds prog[q]
  have : bracketDelta prog[q] = -1 := by omega
  exact bracketDelta_eq_neg_one this

/-- Claim C3: at a LoopOpen whose balanced matching LoopClose exists, the
forward scan with the nesting counter returns exactly the matching
LoopClose position, and the engine at that LoopOpen with a zero cell
resumes just past the matching LoopClose. -/
theorem claim_C3_resolver (prog : List Command) (s : ExecState)
    (com : Command) (q : Nat) (hget : prog[s.it]? = some com)
    (hcc : com.command = '[') (hm : isLoopMatch prog s.it q) :
    skipLoop prog s.it = some q ∧
    (∃ com2, prog[q]? = some com2 ∧ com2.command = ']') ∧
    (s.p.read = 0 → step prog s = .next { s with it := q + 1 }) := by
  obtain ⟨hit, hcom⟩ := List.getElem?_eq_some_iff.mp hget
  have hsl : skipLoop prog s.it = some q := by
    obtain ⟨h1, h2, h3, h4⟩ := hm
    refine skipLoopAux_complete prog (prog.length - s.it) s.it 0 q h1 h2
      (by omega) (by omega) ?_
    intro r hr1 hr2
    have := h4 r hr2 hr1
    omega
  have hclose := loopMatch_close prog s.it q hit (by rw [hcom, hcc]) hm
  obtain ⟨hq, hqc⟩ := hclose
  refine ⟨hsl, ⟨prog[q], List.getElem?_eq_getElem hq, hqc⟩, ?_⟩
  intro h0
  obtain ⟨c, n⟩ := com
  simp only at hcc
  subst hcc
  simp only [step, hget]
  rw [if_pos trivial, if_pos h0, hsl]

/-- Concrete instance of claim C3 on the program `[]` with a zero cell:
the scan matches position 0 to position 1 and the engine resumes at 2. -/
theorem claim_C3_resolver_witness :
    skipLoop [⟨'[', 1⟩, ⟨']', 1⟩] 0 = some 1 ∧
    step [⟨'[', 1⟩, ⟨']', 1⟩] (initState []) =
      .next { initState [] with it := 2 } := by
  have h := claim_C3_resolver [⟨'[', 1⟩, ⟨']', 1⟩] (initState [])
    ⟨'[', 1⟩ 1 rfl rfl (by decide)
  exact ⟨h.1, h.2.2 rfl⟩

/-! ## Idempotence of the merge step -/

theorem serialize_nil : serialize [] = [] := rfl

theorem serialize_cons (c : Char) (n : Nat) (rest : List Command) :
    serialize (⟨c, n⟩ :: rest) = List.replicate n c ++ serialize rest := rfl

/-- The head command emitted by `genAux` carries the head character of
its input. -/
theorem genAux_head :
    ∀ (fuel : Nat) (l : List Char) (com : Command) (tl : List Command),
      genAux fuel l = com :: tl → ∃ t, l = com.command :: t := by
  intro fuel l com tl h
  cases fuel with
  | zero => simp [genAux] at h
  | succ fuel =>
    cases l with
    | nil => simp [genAux] at h
    | cons ch rest =>
      simp only [genAux] at h
      split at h
      · obtain ⟨h1, -⟩ := (List.cons.injEq .. ).mp h
        exact ⟨rest, by rw [← h1]⟩
      · split at h
        · obtain ⟨h1, -⟩ := (List.cons.injEq .. ).mp h
          exact ⟨rest, by rw [← h1]⟩
        · obtain ⟨h1, -⟩ := (List.cons.injEq .. ).mp h
          exact ⟨rest, by rw [← h1]⟩

/-- Every compiled program satisfies the shape invariant. -/
theorem Inv_genAux : ∀ (fuel : Nat) (l : List Char), Inv (genAux fuel l) := by
  intro fuel
  induction fuel with
  | zero => intro l; exact Inv.nil
  | succ fuel ih =>
    intro l
    cases l with
    | nil => exact Inv.nil
    | cons ch rest =>
      simp only [genAux]
      split
      · exact Inv.loop (by assumption) (ih rest)
      · split
        · rename_i hloop hcom
          refine Inv.op hcom hloop (Nat.succ_le_succ (Nat.zero_le _)) ?_
            (ih (countRun ch rest).2)
          intro com hmem
          rw [Option.mem_def] at hmem
          match hgen : genAux fuel (countRun ch rest).2 with
          | [] => rw [hgen] at hmem; simp at hmem
          | com' :: tl =>
            rw [hgen] at hmem
            simp only [List.head?_cons, Option.some.injEq] at hmem
            obtain ⟨t, ht⟩ := genAux_head fuel _ com' tl hgen
            rcases countRun_stop ch rest with hstop | ⟨x, t', hx, hxc, hxne⟩
            · rw [hstop] at ht
              exact absurd ht (by simp)
            · rw [hx] at ht
              obtain ⟨h1, -⟩ := List.cons.injEq .. |>.mp ht
              rw [← hmem, ← h1]
              exact ⟨hxc, hxne⟩
        · exact Inv.comment (by assumption) (ih rest)

theorem eraseComments_cons (com : Command) (rest : List Command) :
    eraseComments (com :: rest) =
      if isCommand com.command then com :: eraseComments rest
      else eraseComments rest := by
  by_cases h : isCommand com.command <;>
    simp [eraseComments, List.filter_cons, h]

theorem countRun_head_ne {c d : Char} (t : List Char)
    (hd : isCommand d) (hne : d ≠ c) : countRun c (d :: t) = (0, d :: t) := by
  simp [countRun, hd, hne]

theorem countRun_replicate {c : Char} (hc : isCommand c) :
    ∀ (k : Nat) (l : List Char),
      countRun c (List.replicate k c ++ l) =
        ((countRun c l).1 + k, (countRun c l).2) := by
  intro k
  induction k with
  | zero => intro l; simp
  | succ k ih =>
    intro l
    rw [List.replicate_succ, List.cons_append, countRun_self _ hc, ih l]
    simp
    omega

/-- A command list satisfying the shape invariant recompiles from its
canonical serialization to exactly its comment-erased form. -/
theorem serialize_recompile :
    ∀ (P : List Command), Inv P →
      generateSourceCode (serialize P) = eraseComments P := by
  intro P hInv
  induction hInv with
  | nil => rfl
  | @comment c rest hc hrest ih =>
    rw [serialize_cons]
    simp only [List.replicate_zero, List.nil_append]
    rw [ih, eraseComments_cons, if_neg hc]
  | @loop c rest hl hrest ih =>
    have hc : isCommand c := isCommand_of_isLoopCommand hl
    rw [serialize_cons]
    simp only [List.replicate_one, List.cons_append, List.nil_append]
    rw [generateSourceCode_loop _ hl, ih, eraseComments_cons, if_pos hc]
  | @op c n rest hc hl hn hhead hrest ih =>
    rw [serialize_cons]
    obtain ⟨k, rfl⟩ : ∃ k, n = k + 1 := ⟨n - 1, by omega⟩
    rw [List.replicate_succ, List.cons_append,
      generateSourceCode_op _ hc hl, countRun_replicate hc]
    have hrun : countRun c (serialize rest) = (0, serialize rest) := by
      cases hr : rest with
      | nil => rfl
      | cons com2 rest' =>
        obtain ⟨h2c, h2ne⟩ := hhead com2 (by rw [hr]; rfl)
        have h2n : 1 ≤ com2.count := by
          rw [hr] at hrest
          cases hrest with
          | comment hcc _ => exact absurd h2c hcc
          | loop _ _ => exact le_rfl
          | op _ _ hn' _ _ => exact hn'
        obtain ⟨m, hm⟩ : ∃ m, com2.count = m + 1 := ⟨com2.count - 1, by omega⟩
        obtain ⟨d, cnt2⟩ := com2
        simp only at h2c h2ne hm
        rw [serialize_cons, hm, List.replicate_succ, List.cons_append]
        exact countRun_head_ne _ h2c h2ne
    rw [hrun, ih, eraseComments_cons, if_pos hc]
    norm_num

/-- Counterexample to claim C8 as stated: the program compiled from the
comment source `a` is one count-0 command; its serialization is empty and
recompiles to the empty program, not to the original. -/
theorem claim_C8_counterexample :
    generateSourceCode (serialize (generateSourceCode ['a'])) ≠
      generateSourceCode ['a'] := by
  decide

/-- Claim C8 (amended): re-serializing a compiled program (each command's
character, count copies) and recompiling yields the compiled program with
its count-0 comment commands removed — hence yields it identically
whenever it contains no comment commands. -/
theorem claim_C8_idempotent (s : List Char) :
    generateSourceCode (serialize (generateSourceCode s)) =
      eraseComments (generateSourceCode s) :=
  serialize_recompile (generateSourceCode s) (Inv_genAux s.length s)

/-! ## Erasing comment commands preserves behavior -/

/-- A completed run is stable under extra fuel. -/
theorem run_mono (prog : List Command) :
    ∀ (fuel fuel' : Nat) (s f : ExecState), fuel ≤ fuel' →
      run prog fuel s = some f → run prog fuel' s = some f := by
  intro fuel
  induction fuel with
  | zero => intro fuel' s f _ h; simp [run] at h
  | succ fuel ih =>
    intro fuel' s f hle h
    obtain ⟨fuel'', rfl⟩ : ∃ k, fuel' = k + 1 := ⟨fuel' - 1, by omega⟩
    simp only [run] at h ⊢
    cases hstep : step prog s with
    | halted => rw [hstep] at h; exact h
    | fault => rw [hstep] at h; exact Option.noConfusion h
    | next s' =>
      rw [hstep] at h
      exact ih fuel'' s' f (by omega) h

theorem posMap_zero (prog : List Command) : posMap prog 0 = 0 := rfl

theorem posMap_succ (prog : List Command) (i : Nat) (h : i < prog.length) :
    posMap prog (i + 1) =
      posMap prog i + (if isCommand prog[i].command then 1 else 0) := by
  simp only [posMap, eraseComments, List.take_succ, List.getElem?_eq_getElem h,
    Option.toList_some, List.filter_append, List.length_append]
  congr 1
  by_cases hc : isCommand prog[i].command <;> simp [List.filter_cons, hc]

theorem posMap_full (prog : List Command) (i : Nat) (h : prog.length ≤ i) :
    posMap prog i = (eraseComments prog).length := by
  simp only [posMap]
  rw [List.take_of_length_le h]

/-- A surviving command sits at its mapped position in the erased
program. -/
theorem posMap_get (prog : List Command) (i : Nat) (h : i < prog.length)
    (hc : isCommand prog[i].command) :
    (eraseComments prog)[posMap prog i]? = some prog[i] := by
  have hsplit : eraseComments prog =
      eraseComments (prog.take i) ++ eraseComments (prog.drop i) := by
    simp only [eraseComments]
    rw [← List.filter_append, List.take_append_drop]
  rw [hsplit, List.getElem?_append_right (le_of_eq rfl : posMap prog i ≤ _)]
  simp only [posMap, Nat.sub_self]
  rw [List.drop_eq_getElem_cons h]
  simp only [eraseComments, List.filter_cons, hc, if_pos]
  simp

/-- A scan that succeeds visits `q + 1 - pos` positions, so needs at
least that much fuel. -/
theorem skipLoopAux_steps (prog : List Command) :
    ∀ (fuel pos : Nat) (cnt : Int) (q : Nat),
      skipLoopAux prog fuel pos cnt = some q → pos ≤ q ∧ q + 1 - pos ≤ fuel := by
  intro fuel
  induction fuel with
  | zero => intro pos cnt q h; simp [skipLoopAux] at h
  | succ fuel ih =>
    intro pos cnt q h
    simp only [skipLoopAux] at h
    cases hget : prog[pos]? with
    | none => simp [hget] at h
    | some com =>
      simp only [hget] at h
      rw [cntStep_eq] at h
      split at h
      · obtain rfl := Option.some.injEq .. |>.mp h
        omega
      · obtain ⟨h1, h2⟩ := ih (pos + 1) _ q h
        omega

/-- Soundness of the resolver scan: a returned position is the first one
(from `pos`, inclusive) where the nesting counter returns to zero. -/
theorem skipLoopAux_sound (prog : List Command) :
    ∀ (fuel pos : Nat) (cnt : Int) (q : Nat),
      skipLoopAux prog fuel pos cnt = some q →
      pos ≤ q ∧ q < prog.length ∧
        cnt + (prefixNet prog (q + 1) - prefixNet prog pos) = 0 ∧
        ∀ r, pos ≤ r → r < q →
          cnt + (prefixNet prog (r + 1) - prefixNet prog pos) ≠ 0 := by
  intro fuel
  induction fuel with
  | zero => intro pos cnt q h; simp [skipLoopAux] at h
  | succ fuel ih =>
    intro pos cnt q h
    simp only [skipLoopAux] at h
    cases hget : prog[pos]? with
    | none => simp [hget] at h
    | some com =>
      simp only [hget] at h
      obtain ⟨hpos, hcom⟩ := List.getElem?_eq_some_iff.mp hget
      have hd : prefixNet prog (pos + 1) =
          prefixNet prog pos + bracketDelta com := by
        rw [prefixNet_succ prog pos hpos, hcom]
      rw [cntStep_eq] at h
      split at h
      · obtain rfl := Option.some.injEq .. |>.mp h
        rename_i hz
        exact ⟨le_rfl, hpos, by omega, fun r h1 h2 => by omega⟩
      · rename_i hnz
        obtain ⟨h1, h2, h3, h4⟩ := ih (pos + 1) _ q h
        refine ⟨by omega, h2, by omega, ?_⟩
        intro r hr1 hr2
        rcases Nat.lt_or_ge r (pos + 1) with hr | hr
        · have : r = pos := by omega
          subst this
          omega
        · have := h4 r hr hr2
          omega

/-- A successful scan is stable under any fuel that still covers it. -/
theorem skipLoopAux_fuel (prog : List Command) :
    ∀ (fuel fuel' pos : Nat) (cnt : Int) (q : Nat),
      skipLoopAux prog fuel pos cnt = some q → q + 1 - pos ≤ fuel' →
      skipLoopAux prog fuel' pos cnt = some q := by
  intro fuel
  induction fuel with
  | zero => intro fuel' pos cnt q h _; simp [skipLoopAux] at h
  | succ fuel ih =>
    intro fuel' pos cnt q h hle
    obtain ⟨hple, -⟩ := skipLoopAux_steps prog (fuel + 1) pos cnt q h
    simp only [skipLoopAux] at h
    cases hget : prog[pos]? with
    | none => simp [hget] at h
    | some com =>
      simp only [hget] at h
      rw [cntStep_eq] at h
      obtain ⟨fuel'', rfl⟩ : ∃ k, fuel' = k + 1 := ⟨fuel' - 1, by omega⟩
      simp only [skipLoopAux, hget]
      rw [cntStep_eq]
      split at h
      · rename_i hz
        rw [if_pos hz]
        exact h
      · rename_i hnz
        rw [if_neg hnz]
        have hb := skipLoopAux_steps prog fuel (pos + 1) _ q h
        exact ih fuel'' (pos + 1) _ q h (by omega)

/-- The resolver scan commutes with comment erasure: comment commands
contribute nothing to the nesting counter and are never a stopping
position (the counter is nonzero throughout). -/
theorem skipLoopAux_commute (prog : List Command) :
    ∀ (fuel pos : Nat) (cnt : Int) (q : Nat), cnt ≠ 0 →
      skipLoopAux prog fuel pos cnt = some q →
      skipLoopAux (eraseComments prog) fuel (posMap prog pos) cnt =
        some (posMap prog q) := by
  intro fuel
  induction fuel with
  | zero => intro pos cnt q _ h; simp [skipLoopAux] at h
  | succ fuel ih =>
    intro pos cnt q hcnt h
    simp only [skipLoopAux] at h
    cases hget : prog[pos]? with
    | none => simp [hget] at h
    | some com =>
      simp only [hget] at h
      obtain ⟨hpos, hcom⟩ := List.getElem?_eq_some_iff.mp hget
      by_cases hc : isCommand com.command
      · have hget2 : (eraseComments prog)[posMap prog pos]? = some com := by
          have := posMap_get prog pos hpos (by rw [hcom]; exact hc)
          rw [hcom] at this
          exact this
        have hsucc : posMap prog (pos + 1) = posMap prog pos + 1 := by
          rw [posMap_succ prog pos hpos, hcom, if_pos hc]
        rw [cntStep_eq] at h
        simp only [skipLoopAux, hget2]
        rw [cntStep_eq]
        split at h
        · rename_i hz
          rw [if_pos hz]
          obtain rfl := Option.some.injEq .. |>.mp h
          rfl
        · rename_i hnz
          rw [if_neg hnz]
          have := ih (pos + 1) _ q hnz h
          rw [hsucc] at this
          exact this
      · obtain ⟨hne1, hne2, _⟩ := ne_of_not_isCommand hc
        have hcnt' : (if com.command = '[' then cnt + 1
            else if com.command = ']' then cnt - 1 else cnt) = cnt := by
          rw [if_neg hne1, if_neg hne2]
        rw [hcnt'] at h
        rw [if_neg hcnt] at h
        have hsucc : posMap prog (pos + 1) = posMap prog pos := by
          rw [posMap_succ prog pos hpos, hcom, if_neg hc]
          omega
        have htail := ih (pos + 1) cnt q hcnt h
        rw [hsucc] at htail
        have hb := skipLoopAux_steps (eraseComments prog) fuel
          (posMap prog pos) cnt (posMap prog q) htail
        exact skipLoopAux_fuel (eraseComments prog) fuel (fuel + 1)
          (posMap prog pos) cnt (posMap prog q) htail (by omega)

/-- A successful `skipLoop` scan reaches the declarative loop match. -/
theorem skipLoop_sound_match (prog : List Command) (p q : Nat)
    (h : skipLoop prog p = some q) : isLoopMatch prog p q := by
  obtain ⟨h1, h2, h3, h4⟩ := skipLoopAux_sound prog (prog.length - p) p 0 q h
  exact ⟨h1, h2, by omega, fun r hr1 hr2 => by have := h4 r hr2 hr1; omega⟩

/-- A successful `skipLoop` scan from a `[` stops on a `]`. -/
theorem skipLoop_close (prog : List Command) (p q : Nat) (com : Command)
    (hget : prog[p]? = some com) (hcc : com.command = '[')
    (h : skipLoop prog p = some q) :
    ∃ hq : q < prog.length, prog[q].command = ']' := by
  obtain ⟨hp, hcom⟩ := List.getElem?_eq_some_iff.mp hget
  exact loopMatch_close prog p q hp (by rw [hcom, hcc])
    (skipLoop_sound_match prog p q h)

/-- `skipLoop` commutes with comment erasure. -/
theorem skipLoop_commute (prog : List Command) (pos q : Nat) (com : Command)
    (hget : prog[pos]? = some com) (hcc : com.command = '[')
    (h : skipLoop prog pos = some q) :
    skipLoop (eraseComments prog) (posMap prog pos) =
      some (posMap prog q) := by
  obtain ⟨hpos, hcom⟩ := List.getElem?_eq_some_iff.mp hget
  have hcdel : bracketDelta com = 1 := bracketDelta_open hcc
  simp only [skipLoop] at h
  obtain ⟨k, hk⟩ : ∃ k, prog.length - pos = k + 1 :=
    ⟨prog.length - pos - 1, by omega⟩
  rw [hk] at h
  simp only [skipLoopAux, hget] at h
  rw [cntStep_eq, hcdel] at h
  rw [if_neg (by omega : ¬ (0 + 1 : Int) = 0)] at h
  have hcom2 : (eraseComments prog)[posMap prog pos]? = some com := by
    have := posMap_get prog pos hpos (by rw [hcom, hcc]; decide)
    rw [hcom] at this
    exact this
  have htail := skipLoopAux_commute prog k (pos + 1) (0 + 1) q (by omega) h
  have hpisucc : posMap prog (pos + 1) = posMap prog pos + 1 := by
    rw [posMap_succ prog pos hpos, hcom, if_pos (by rw [hcc]; decide)]
  rw [hpisucc] at htail
  obtain ⟨hb1, -⟩ := skipLoopAux_steps _ k _ _ _ htail
  obtain ⟨-, hb2, -, -⟩ := skipLoopAux_sound _ k _ _ _ htail
  have hpilt : posMap prog pos < (eraseComments prog).length :=
    (List.getElem?_eq_some_iff.mp hcom2).1
  simp only [skipLoop]
  obtain ⟨m, hm⟩ : ∃ m,
      (eraseComments prog).length - posMap prog pos = m + 1 :=
    ⟨(eraseComments prog).length - posMap prog pos - 1, by omega⟩
  rw [hm]
  simp only [skipLoopAux, hcom2]
  rw [cntStep_eq, hcdel, if_neg (by omega : ¬ (0 + 1 : Int) = 0)]
  exact skipLoopAux_fuel _ k m (posMap prog pos + 1) (0 + 1)
    (posMap prog q) htail (by omega)

/-- The driver loop halts only past the end of the program. -/
theorem step_halted_of (prog : List Command) (s : ExecState)
    (h : step prog s = .halted) : prog[s.it]? = none := by
  cases hget : prog[s.it]? with
  | none => rfl
  | some com =>
    simp only [step, hget] at h
    split at h
    · split at h
      · split at h <;> exact StepResult.noConfusion h
      · exact StepResult.noConfusion h
    · split at h
      · split at h <;> exact StepResult.noConfusion h
      · exact StepResult.noConfusion h

/-- Comment commands are pure stutter steps: running a program and
running its comment-erased form from related states halt together (within
the same fuel) in related states — in particular with identical tape,
input and output. -/
theorem run_erase (prog : List Command) :
    ∀ (fuel : Nat) (s f : ExecState), run prog fuel s = some f →
      run (eraseComments prog) fuel (mapState prog s) =
        some (mapState prog f) := by
  intro fuel
  induction fuel with
  | zero => intro s f h; simp [run] at h
  | succ fuel ih =>
    intro s f h
    simp only [run] at h
    cases hstep : step prog s with
    | fault => rw [hstep] at h; exact Option.noConfusion h
    | halted =>
      rw [hstep] at h
      obtain rfl := Option.some.injEq .. |>.mp h
      have hnone := step_halted_of prog s hstep
      have hlen : prog.length ≤ s.it := by
        simpa using List.getElem?_eq_none_iff.mp hnone
      have h2 : (eraseComments prog)[(mapState prog s).it]? = none := by
        apply List.getElem?_eq_none_iff.mpr
        show (eraseComments prog).length ≤ posMap prog s.it
        rw [posMap_full prog s.it hlen]
      have hstep2 : step (eraseComments prog) (mapState prog s) = .halted := by
        simp only [step, h2]
      simp only [run, hstep2]
    | next s' =>
      rw [hstep] at h
      cases hget : prog[s.it]? with
      | none =>
        have hh : step prog s = .halted := by simp only [step, hget]
        rw [hh] at hstep
        exact StepResult.noConfusion hstep
      | some com =>
        obtain ⟨hit, hcom⟩ := List.getElem?_eq_some_iff.mp hget
        by_cases hbo : com.command = '['
        · have hgete : (eraseComments prog)[posMap prog s.it]? = some com := by
            have := posMap_get prog s.it hit (by rw [hcom, hbo]; decide)
            rw [hcom] at this
            exact this
          have hsucci : posMap prog (s.it + 1) = posMap prog s.it + 1 := by
            rw [posMap_succ prog s.it hit, hcom, if_pos (by rw [hbo]; decide)]
          by_cases hz : s.p.read = 0
          · cases hsl : skipLoop prog s.it with
            | none =>
              have hc : step prog s = .fault := by
                simp only [step, hget]
                rw [if_pos hbo, if_pos hz, hsl]
              rw [hc] at hstep
              exact StepResult.noConfusion hstep
            | some q =>
              have hc : step prog s = .next { s with it := q + 1 } := by
                simp only [step, hget]
                rw [if_pos hbo, if_pos hz, hsl]
              rw [hc] at hstep
              obtain rfl := StepResult.next.injEq .. |>.mp hstep
              obtain ⟨hq, hqc⟩ := skipLoop_close prog s.it q com hget hbo hsl
              have hsuccq : posMap prog (q + 1) = posMap prog q + 1 := by
                rw [posMap_succ prog q hq, if_pos (by rw [hqc]; decide)]
              have hsl2 := skipLoop_commute prog s.it q com hget hbo hsl
              have hc2 : step (eraseComments prog) (mapState prog s) =
                  .next { mapState prog s with it := posMap prog q + 1 } := by
                simp only [step, mapState, hgete]
                rw [if_pos hbo, if_pos hz, hsl2]
              simp only [run, hc2]
              have hms : ({ mapState prog s with
                  it := posMap prog q + 1 } : ExecState) =
                  mapState prog { s with it := q + 1 } := by
                simp only [mapState, hsuccq]
              rw [hms]
              exact ih _ f h
          · have hc : step prog s =
                .next { s with stack := s.it :: s.stack, it := s.it + 1 } := by
              simp only [step, hget]
              rw [if_pos hbo, if_neg hz]
            rw [hc] at hstep
            obtain rfl := StepResult.next.injEq .. |>.mp hstep
            have hc2 : step (eraseComments prog) (mapState prog s) =
                .next { mapState prog s with
                  stack := posMap prog s.it :: s.stack.map (posMap prog),
                  it := posMap prog s.it + 1 } := by
              simp only [step, mapState, hgete]
              rw [if_pos hbo, if_neg hz]
            simp only [run, hc2]
            have hms : ({ mapState prog s with
                stack := posMap prog s.it :: s.stack.map (posMap prog),
                it := posMap prog s.it + 1 } : ExecState) =
                mapState prog
                  { s with it := s.it + 1, stack := s.it :: s.stack } := by
              simp only [mapState, List.map_cons, hsucci]
            rw [hms]
            exact ih _ f h
        · by_cases hbc : com.command = ']'
          · have hgete : (eraseComments prog)[posMap prog s.it]? = some com := by
              have := posMap_get prog s.it hit (by rw [hcom, hbc]; decide)
              rw [hcom] at this
              exact this
            cases hstack : s.stack with
            | nil =>
              have hc : step prog s = .fault := by
                simp only [step, hget]
                rw [if_neg hbo, if_pos hbc, hstack]
              rw [hc] at hstep
              exact StepResult.noConfusion hstep
            | cons t rest =>
              have hc : step prog s =
                  .next { s with it := t, stack := rest } := by
                simp only [step, hget]
                rw [if_neg hbo, if_pos hbc, hstack]
              rw [hc] at hstep
              obtain rfl := StepResult.next.injEq .. |>.mp hstep
              have hc2 : step (eraseComments prog) (mapState prog s) =
                  .next { mapState prog s with
                    it := posMap prog t,
                    stack := rest.map (posMap prog) } := by
                simp only [step, mapState, hgete, hstack, List.map_cons]
                rw [if_neg hbo, if_pos hbc]
              simp only [run, hc2]
              have hms : ({ mapState prog s with
                  it := posMap prog t,
                  stack := rest.map (posMap prog) } : ExecState) =
                  mapState prog { s with it := t, stack := rest } := by
                simp only [mapState]
              rw [hms]
              exact ih _ f h
          · by_cases hco : isCommand com.command
            · have hgete : (eraseComments prog)[posMap prog s.it]? =
                  some com := by
                have := posMap_get prog s.it hit (by rw [hcom]; exact hco)
                rw [hcom] at this
                exact this
              have hsucci : posMap prog (s.it + 1) = posMap prog s.it + 1 := by
                rw [posMap_succ prog s.it hit, hcom, if_pos hco]
              have hc : step prog s = .next { s with
                  it := s.it + 1,
                  p := (interpret com s.p s.input s.output).2.1,
                  input := (interpret com s.p s.input s.output).2.2.1,
                  output := (interpret com s.p s.input s.output).2.2.2 } := by
                simp only [step, hget]
                rw [if_neg hbo, if_neg hbc]
              rw [hc] at hstep
              obtain rfl := StepResult.next.injEq .. |>.mp hstep
              have hc2 : step (eraseComments prog) (mapState prog s) =
                  .next { mapState prog s with
                    it := posMap prog s.it + 1,
                    p := (interpret com s.p s.input s.output).2.1,
                    input := (interpret com s.p s.input s.output).2.2.1,
                    output := (interpret com s.p s.input s.output).2.2.2 } := by
                simp only [step, mapState, hgete]
                rw [if_neg hbo, if_neg hbc]
              simp only [run, hc2]
              have hms : ({ mapState prog s with
                  it := posMap prog s.it + 1,
                  p := (interpret com s.p s.input s.output).2.1,
                  input := (interpret com s.p s.input s.output).2.2.1,
                  output := (interpret com s.p s.input s.output).2.2.2 } :
                    ExecState) =
                  mapState prog { s with
                    it := s.it + 1,
                    p := (interpret com s.p s.input s.output).2.1,
                    input := (interpret com s.p s.input s.output).2.2.1,
                    output := (interpret com s.p s.input s.output).2.2.2 } := by
                simp only [mapState, hsucci]
              rw [hms]
              exact ih _ f h
            · have hc : step prog s = .next { s with it := s.it + 1 } := by
                simp only [step, hget]
                rw [if_neg hbo, if_neg hbc,
                  interpret_comment com s.p s.input s.output hco]
              rw [hc] at hstep
              obtain rfl := StepResult.next.injEq .. |>.mp hstep
              have hms : mapState prog { s with it := s.it + 1 } =
                  mapState prog s := by
                simp only [mapState]
                rw [posMap_succ prog s.it hit, hcom, if_neg hco]
                norm_num
              have h2 := ih _ f h
              rw [hms] at h2
              exact run_mono _ fuel (fuel + 1) _ _ (by omega) h2

/-- Claim C10: `interpret` returns `false` on a command whose character
is not one of the eight operators and leaves tape, cursor, input and
output unchanged; consequently a program runs to the same observable
behavior (output bytes, input consumption, final tape) as the same
program with its comment commands removed. -/
theorem claim_C10_comment_frame :
    (∀ (com : Command) (p : Pointer) (input output : List Nat),
      ¬ isCommand com.command →
      interpret com p input output = (false, p, input, output)) ∧
    (∀ (prog : List Command) (input : List Nat) (fuel : Nat) (f : ExecState),
      run prog fuel (initState input) = some f →
      ∃ f2, run (eraseComments prog) fuel (initState input) = some f2 ∧
        f2.output = f.output ∧ f2.input = f.input ∧ f2.p = f.p) := by
  refine ⟨interpret_comment, ?_⟩
  intro prog input fuel f h
  refine ⟨mapState prog f, ?_, rfl, rfl, rfl⟩
  have hsim := run_erase prog fuel (initState input) f h
  have hinit : mapState prog (initState input) = initState input := rfl
  rwa [hinit] at hsim

/-- Concrete instance of claim C10: the comment command from byte `a` is
a no-op, and the program compiled from `a+.` behaves like `+.`. -/
theorem claim_C10_comment_frame_witness :
    interpret ⟨'a', 0⟩ Pointer.init [] [] = (false, Pointer.init, [], []) ∧
    ∃ f2, run (eraseComments [⟨'a', 0⟩, ⟨'+', 1⟩, ⟨'.', 1⟩]) 5
        (initState []) = some f2 ∧
      f2.output = (⟨3, [], ⟨[1], 0⟩, [], [1]⟩ : ExecState).output ∧
      f2.input = (⟨3, [], ⟨[1], 0⟩, [], [1]⟩ : ExecState).input ∧
      f2.p = (⟨3, [], ⟨[1], 0⟩, [], [1]⟩ : ExecState).p :=
  ⟨claim_C10_comment_frame.1 ⟨'a', 0⟩ Pointer.init [] [] (by decide),
    claim_C10_comment_frame.2 [⟨'a', 0⟩, ⟨'+', 1⟩, ⟨'.', 1⟩] [] 5
      ⟨3, [], ⟨[1], 0⟩, [], [1]⟩ (by decide)⟩

end BF
